import Mathlib

/-!
Verification of the aggregation-normalization-ranking pipeline of the
vegetable-rate repository.

Modelling conventions (shallow embedding):
* Python strings are `List Char`; Python numeric values (floats/ints) are `ℚ`.
  Missing values (`None` / `NaN`) are `Option.none`; a parser that returns a
  float or raises/returns a missing marker is an `Option ℚ`-valued function.
  `float()` is modelled on the sign/decimal-literal fragment of its grammar
  (no exponents and no inf/nan tokens, which never arise from this data).
* `str.replace(pat, '')` is `removeAll`, a left-to-right non-overlapping
  scan.  It is written with an explicit fuel argument (one unit per consumed
  character, so `s.length` units always suffice) purely so that it is
  structurally recursive and kernel-evaluable.
* pandas `Series.min/max` over a non-empty column are left folds of
  `min`/`max`; `nlargest(n, col)` (default `keep='first'`) is a stable
  descending sort by the column followed by `take n`, which is the documented
  pandas semantics.
-/

/-- Digit test used to model the regex `\d` and Python digit parsing:
a character with code point between 48 (`0`) and 57 (`9`). -/
def isDigitC (c : Char) : Bool := decide (48 ≤ c.toNat ∧ c.toNat ≤ 57)

/-- Whitespace test modelling Python `str.strip()` (the whitespace kinds that
can occur in a spreadsheet cell). -/
def isSpaceC (c : Char) : Bool := c = ' ' || c = '\t' || c = '\n' || c = '\r'

/-- Numeric value of a digit character (`'0'` has code point 48). -/
def charVal (c : Char) : ℕ := c.toNat - 48

/-- The decimal digit character for a value below ten. -/
def digitChar : ℕ → Char
  | 0 => '0'
  | 1 => '1'
  | 2 => '2'
  | 3 => '3'
  | 4 => '4'
  | 5 => '5'
  | 6 => '6'
  | 7 => '7'
  | 8 => '8'
  | _ => '9'

/-- Value of a most-significant-first digit string, as produced by Python
`int(...)` / `float(...)` on a pure digit run. -/
def parseDigits (s : List Char) : ℕ := s.foldl (fun a c => 10 * a + charVal c) 0

/-- `leadsWith pat s` holds when `pat` occurs at the very front of `s`
(the prefix test used by `str.replace` at each scan position). -/
def leadsWith : List Char → List Char → Bool
  | [], _ => true
  | _ :: _, [] => false
  | p :: ps, c :: cs => if p = c then leadsWith ps cs else false

/-- Fuelled left-to-right scan deleting every non-overlapping occurrence of
`pat`, the model of Python `s.replace(pat, '')`.  One fuel unit is spent per
consumed character, so `s.length` fuel is always enough. -/
def removeAllFuel (pat : List Char) : ℕ → List Char → List Char
  | 0, s => s
  | _ + 1, [] => []
  | f + 1, c :: rest =>
    if pat ≠ [] ∧ leadsWith pat (c :: rest) = true then
      removeAllFuel pat f ((c :: rest).drop pat.length)
    else
      c :: removeAllFuel pat f rest

/-- Python `s.replace(pat, '')`. -/
def removeAll (pat s : List Char) : List Char := removeAllFuel pat s.length s

/-- Python `str.strip()`: drop leading and trailing whitespace. -/
def strip (s : List Char) : List Char :=
  ((s.dropWhile isSpaceC).reverse.dropWhile isSpaceC).reverse

/-- First maximal run of digits in a string, the model of
`re.search(r'(\d+)', s)`: `none` when the string has no digit. -/
def firstDigitRun : List Char → Option (List Char)
  | [] => none
  | c :: r => if isDigitC c then some (c :: r.takeWhile isDigitC) else firstDigitRun r

/-- Unsigned part of Python `float()` on the decimal fragment of its grammar:
digits, an optional point and fractional digits, at least one digit overall,
nothing else. -/
def parseFloatCore (s : List Char) : Option ℚ :=
  let ip := s.takeWhile isDigitC
  let r1 := s.drop ip.length
  match r1 with
  | [] => if ip.isEmpty then none else some ((parseDigits ip : ℚ))
  | '.' :: fr =>
    let fp := fr.takeWhile isDigitC
    if (fr.drop fp.length).isEmpty then
      if ip.isEmpty && fp.isEmpty then none
      else some ((parseDigits ip : ℚ) + (parseDigits fp : ℚ) / (10 : ℚ) ^ fp.length)
    else none
  | _ => none

/-- Python `float()` (decimal fragment): optional sign then `parseFloatCore`;
a failure (`ValueError`, caught by every caller) is `none`. -/
def parseFloat (s : List Char) : Option ℚ :=
  match s with
  | [] => none
  | c :: r =>
    if c = '-' then (parseFloatCore r).map (fun q => -q)
    else if c = '+' then parseFloatCore r
    else parseFloatCore (c :: r)

/-- The literal `'Rs.'` removed by the strict parsers. -/
def rsC : List Char := ['R', 's', '.']

/-- The trailing slash-dash suffix literal removed by the strict parsers. -/
def sufC : List Char := ['/', '-']

/-- The thousands separator `','` removed by the strict parsers. -/
def commaC : List Char := [',']

/-- The `'&nbsp;'` missing-value placeholder. -/
def nbspC : List Char := ['&', 'n', 'b', 's', 'p', ';']

/-- The decoration scheme of the data (rupee marker, space, numeral,
slash-dash suffix) applied to an already rendered numeral. -/
def rsFormat (numeral : List Char) : List Char := rsC ++ (' ' :: (numeral ++ sufC))

/-- Python `str(n)` for a natural number: most-significant-first decimal
digits (`Nat.digits` is least-significant-first, hence the reverse). -/
def natNumeral (n : ℕ) : List Char :=
  if n = 0 then ['0'] else ((Nat.digits 10 n).map digitChar).reverse

/-- `clean_rate` of `crop_rate_analysis.py` (tolerant policy): the `'&nbsp;'`
sentinel is `None`; otherwise the first embedded digit run is converted with
`float`, and a string with no digits is `None`.  (`march_crop_analysis.py`'s
`extract_rate` is the same algorithm with `int` conversion.)  The `pd.isna`
branch handles a non-string missing cell, outside the string domain modelled
here. -/
def clean_rate (s : List Char) : Option ℚ :=
  if s = nbspC then none
  else
    match firstDigitRun s with
    | some run => some ((parseDigits run : ℚ))
    | none => none

/-- `extract_rate` of `top_vegetables_june.py` (strict policy): strip the
rupee marker, the slash-dash suffix and the comma decorations and the
surrounding whitespace, then `float`; a `ValueError` yields the missing
marker. -/
def extract_rate (s : List Char) : Option ℚ :=
  parseFloat (strip (removeAll commaC (removeAll sufC (removeAll rsC s))))

/-- `_parse_rs` of `profitable_vegetables.py`: identical strict
decoration-stripping parse (`ValueError` becomes `NaN`, modelled `none`). -/
def _parse_rs (s : List Char) : Option ℚ :=
  parseFloat (strip (removeAll commaC (removeAll sufC (removeAll rsC s))))

/-- `_parse_price` of `vegetable_analysis.py`: the `'&nbsp;'` sentinel is
`None`, otherwise the strict decoration-stripping parse (any exception
becomes `None`). -/
def _parse_price (s : List Char) : Option ℚ :=
  if s = nbspC then none
  else parseFloat (strip (removeAll commaC (removeAll sufC (removeAll rsC s))))

/-- `pd.to_numeric(..., errors='coerce')` on a string cell: numeric parse,
`NaN` (here `none`) when not numeric. -/
def to_numeric (s : List Char) : Option ℚ := parseFloat (strip s)

/-- pandas `Series.min` over a column: left fold of `min` (buckets are
non-empty in every use; the empty default is never reached there). -/
def seriesMin : List ℚ → ℚ
  | [] => 0
  | a :: t => t.foldl min a

/-- pandas `Series.max` over a column: left fold of `max`. -/
def seriesMax : List ℚ → ℚ
  | [] => 0
  | a :: t => t.foldl max a

/-- `_minmax` of `profitable_vegetables.py`: rescale by the column's own
range, or a constant all-zero column when the range is degenerate. -/
def _minmax (l : List ℚ) : List ℚ :=
  let lo := seriesMin l
  let hi := seriesMax l
  if hi ≠ lo then l.map (fun x => (x - lo) / (hi - lo)) else l.map (fun _ => 0)

/-- `normalize` of `top_vegetables_june.py` (the name is taken in Mathlib,
hence the suffixed Lean name): same rescaling, but a constant one-half
column in the degenerate case. -/
def normalizeJune (l : List ℚ) : List ℚ :=
  let mn := seriesMin l
  let mx := seriesMax l
  if mx = mn then l.map (fun _ => 1 / 2) else l.map (fun x => (x - mn) / (mx - mn))

/-- One monthly per-vegetable row of `profitable_vegetables.py` entering the
scoring step (the three raw metrics of one month bucket). -/
structure MRow where
  avg_price : ℚ
  total_volume : ℚ
  per_acre : ℚ
deriving DecidableEq

/-- `profit_score` column of `profitable_vegetables.py`: the three metrics
of the bucket are min-max normalised columnwise and averaged rowwise. -/
def profit_score (b : List MRow) : List ℚ :=
  let np := _minmax (b.map (fun r => r.avg_price))
  let nv := _minmax (b.map (fun r => r.total_volume))
  let na := _minmax (b.map (fun r => r.per_acre))
  (np.zip (nv.zip na)).map (fun x => (x.1 + x.2.1 + x.2.2) / 3)

/-- One aggregated per-vegetable row of `top_vegetables_june.py` (volume and
mean rate for the June bucket). -/
structure JRow where
  avg_rate : ℚ
  volume : ℚ
deriving DecidableEq

/-- `combined_score` column of `top_vegetables_june.py`: equal-weight sum of
the two normalised metrics. -/
def combined_score (b : List JRow) : List ℚ :=
  let rn := normalizeJune (b.map (fun r => r.avg_rate))
  let vn := normalizeJune (b.map (fun r => r.volume))
  (rn.zip vn).map (fun x => 1 / 2 * x.1 + 1 / 2 * x.2)

/-- A bucket row as seen by a ranking strategy: the canonical commodity name
and the primary ordering key (`avg_price` for `PriceRankingStrategy.rank`,
`profit_score` for the top-10 selection). -/
structure SRow where
  name : String
  score : ℚ
deriving DecidableEq

/-- Descending comparison on the primary key, non-strict so that the
insertion sort below is stable (equal keys keep their input order). -/
def rowGE (a b : SRow) : Prop := b.score ≤ a.score

instance : DecidableRel rowGE := fun a b => inferInstanceAs (Decidable (b.score ≤ a.score))

/-- Stable descending sort by the primary key: the behaviour of pandas
`sort_values(col, ascending=False)` with a stable kind. -/
def sortDesc (l : List SRow) : List SRow := List.insertionSort rowGE l

/-- pandas `DataFrame.nlargest(n, col)` with the default `keep='first'`:
documented as equivalent to a stable descending sort followed by `head(n)`.
This is the selection used by `PriceRankingStrategy.rank` and by the top-10
step of `profitable_vegetables.py`. -/
def nlargest (n : ℕ) (l : List SRow) : List SRow := (sortDesc l).take n

/-- One cleaned row of `profitable_vegetables.py` entering the monthly
group-by (all numeric fields present after the dropna). -/
structure PRow where
  ym : ℕ
  code : ℕ
  name : String
  rate_date : ℕ
  qty : ℚ
  avg_rate : ℚ
deriving DecidableEq

/-- The rows of one `(year_month, code_number, product_name)` group. -/
def groupRows (rows : List PRow) (ym code : ℕ) (name : String) : List PRow :=
  rows.filter (fun r => decide (r.ym = ym ∧ r.code = code ∧ r.name = name))

/-- The `n_days` aggregate of `profitable_vegetables.py`: pandas
`("qty", "count")`, the number of non-null `qty` cells of the group — after
the dropna every `qty` is present, so it is the number of rows. -/
def n_days (rows : List PRow) (ym code : ℕ) (name : String) : ℕ :=
  (groupRows rows ym code name).length

/-- The `total_volume` aggregate: sum of `qty` over the group. -/
def total_volume (rows : List PRow) (ym code : ℕ) (name : String) : ℚ :=
  ((groupRows rows ym code name).map (fun r => r.qty)).sum

/-- The `avg_price` aggregate: mean of `avg_rate` over the group. -/
def avg_price (rows : List PRow) (ym code : ℕ) (name : String) : ℚ :=
  ((groupRows rows ym code name).map (fun r => r.avg_rate)).sum /
    ((groupRows rows ym code name).length : ℚ)

/-- The spec's notion for the same aggregate: the number of DISTINCT
observation dates of the group (multiple intraday rows for one date count
once). -/
def distinctTradingDays (rows : List PRow) (ym code : ℕ) (name : String) : ℕ :=
  ((groupRows rows ym code name).map (fun r => r.rate_date)).dedup.length

/-- One raw spreadsheet row as consumed by `VegetableDataCleaner.clean` of
`vegetable_analysis.py` (the date is abstracted to a day index, unused by
the cleaner itself). -/
structure RawObservation where
  rate_date : ℕ
  product_name : String
  product_quantity : List Char
  product_max_rate : List Char
  product_min_rate : List Char
deriving DecidableEq

/-- A row after the parsing columns of `VegetableDataCleaner.clean` have
been computed (before the dropna and the vocabulary filter). -/
structure ParsedRow where
  rate_date : ℕ
  product_name : String
  product_max_rate : Option ℚ
  product_min_rate : Option ℚ
  product_quantity : Option ℚ
  avg_price : Option ℚ
deriving DecidableEq

/-- The `avg_price` column: `(max + min) / 2` with pandas NaN propagation
(missing whenever either operand is missing). -/
def optAvg : Option ℚ → Option ℚ → Option ℚ
  | some a, some b => some ((a + b) / 2)
  | _, _ => none

/-- The columnwise parsing step of `VegetableDataCleaner.clean`. -/
def parseRowVA (r : RawObservation) : ParsedRow :=
  let mx := _parse_price r.product_max_rate
  let mn := _parse_price r.product_min_rate
  let q := to_numeric r.product_quantity
  { rate_date := r.rate_date, product_name := r.product_name,
    product_max_rate := mx, product_min_rate := mn,
    product_quantity := q, avg_price := optAvg mx mn }

/-- `VegetableDataCleaner.clean`: parse the three numeric columns, drop the
rows whose `avg_price` or `product_quantity` is missing, then keep only the
rows whose name belongs to the injected vocabulary. -/
def clean (vocab : List String) (rows : List RawObservation) : List ParsedRow :=
  (((rows.map parseRowVA).filter
      (fun p => p.avg_price.isSome && p.product_quantity.isSome)).filter
      (fun p => vocab.contains p.product_name))

theorem foldl_min_le (t : List ℚ) : ∀ a : ℚ, t.foldl min a ≤ a := by
  induction t with
  | nil => intro a; exact le_refl a
  | cons b t ih => intro a; exact le_trans (ih (min a b)) (min_le_left a b)

theorem foldl_min_le_of_mem (t : List ℚ) : ∀ a x : ℚ, x ∈ t → t.foldl min a ≤ x := by
  induction t with
  | nil => intro a x hx; cases hx
  | cons b t ih =>
    intro a x hx
    rcases List.mem_cons.mp hx with h | h
    · rw [h]; exact le_trans (foldl_min_le t (min a b)) (min_le_right a b)
    · exact ih (min a b) x h

theorem le_foldl_max (t : List ℚ) : ∀ a : ℚ, a ≤ t.foldl max a := by
  induction t with
  | nil => intro a; exact le_refl a
  | cons b t ih => intro a; exact le_trans (le_max_left a b) (ih (max a b))

theorem le_foldl_max_of_mem (t : List ℚ) : ∀ a x : ℚ, x ∈ t → x ≤ t.foldl max a := by
  induction t with
  | nil => intro a x hx; cases hx
  | cons b t ih =>
    intro a x hx
    rcases List.mem_cons.mp hx with h | h
    · rw [h]; exact le_trans (le_max_right a b) (le_foldl_max t (max a b))
    · exact ih (max a b) x h

theorem seriesMin_le_of_mem (l : List ℚ) (x : ℚ) (hx : x ∈ l) : seriesMin l ≤ x := by
  cases l with
  | nil => cases hx
  | cons a t =>
    rcases List.mem_cons.mp hx with h | h
    · rw [h]; exact foldl_min_le t a
    · exact foldl_min_le_of_mem t a x h

theorem le_seriesMax_of_mem (l : List ℚ) (x : ℚ) (hx : x ∈ l) : x ≤ seriesMax l := by
  cases l with
  | nil => cases hx
  | cons a t =>
    rcases List.mem_cons.mp hx with h | h
    · rw [h]; exact le_foldl_max t a
    · exact le_foldl_max_of_mem t a x h

theorem getD_of_lt {α : Type} (l : List α) (i : ℕ) (hi : i < l.length) (d : α) :
    l.getD i d = l[i] := by
  rw [List.getD_eq_getElem?_getD, List.getElem?_eq_getElem hi]
  rfl

theorem _minmax_length (l : List ℚ) : ( _minmax l).length = l.length := by
  simp only [ _minmax]
  split <;> simp

theorem normalizeJune_length (l : List ℚ) : (normalizeJune l).length = l.length := by
  simp only [normalizeJune]
  split <;> simp

theorem mem_minmax_bounds (l : List ℚ) (y : ℚ) (hy : y ∈ _minmax l) : 0 ≤ y ∧ y ≤ 1 := by
  simp only [ _minmax] at hy
  by_cases h : seriesMax l ≠ seriesMin l
  · rw [if_pos h] at hy
    rcases List.mem_map.mp hy with ⟨x, hx, rfl⟩
    have h1 := seriesMin_le_of_mem l x hx
    have h2 := le_seriesMax_of_mem l x hx
    have hpos : 0 < seriesMax l - seriesMin l :=
      sub_pos.mpr (lt_of_le_of_ne (le_trans h1 h2) (Ne.symm h))
    constructor
    · exact div_nonneg (sub_nonneg.mpr h1) (le_of_lt hpos)
    · exact (div_le_one hpos).mpr (sub_le_sub_right h2 (seriesMin l))
  · rw [if_neg h] at hy
    rcases List.mem_map.mp hy with ⟨x, _, rfl⟩
    norm_num

theorem mem_normalizeJune_bounds (l : List ℚ) (y : ℚ) (hy : y ∈ normalizeJune l) :
    0 ≤ y ∧ y ≤ 1 := by
  simp only [normalizeJune] at hy
  by_cases h : seriesMax l = seriesMin l
  · rw [if_pos h] at hy
    rcases List.mem_map.mp hy with ⟨x, _, rfl⟩
    norm_num
  · rw [if_neg h] at hy
    rcases List.mem_map.mp hy with ⟨x, hx, rfl⟩
    have h1 := seriesMin_le_of_mem l x hx
    have h2 := le_seriesMax_of_mem l x hx
    have hpos : 0 < seriesMax l - seriesMin l :=
      sub_pos.mpr (lt_of_le_of_ne (le_trans h1 h2) (Ne.symm h))
    constructor
    · exact div_nonneg (sub_nonneg.mpr h1) (le_of_lt hpos)
    · exact (div_le_one hpos).mpr (sub_le_sub_right h2 (seriesMin l))

/-- C1: for a non-degenerate bucket both min-max normalizers map every
occurrence of the maximum raw value to exactly 1 and of the minimum to
exactly 0; in the degenerate (all-equal) case `_minmax` of
`profitable_vegetables.py` yields uniformly 0 and `normalize` of
`top_vegetables_june.py` yields uniformly one half — each a single constant
drawn from the two configured choices. -/
theorem minmax_maps_extremes (l : List ℚ) (i : ℕ) (hi : i < l.length) :
    (seriesMax l ≠ seriesMin l →
      ((l.getD i 0 = seriesMax l →
          ( _minmax l).getD i 0 = 1 ∧ (normalizeJune l).getD i 0 = 1) ∧
       (l.getD i 0 = seriesMin l →
          ( _minmax l).getD i 0 = 0 ∧ (normalizeJune l).getD i 0 = 0))) ∧
    (seriesMax l = seriesMin l →
      ( _minmax l).getD i 0 = 0 ∧ (normalizeJune l).getD i 0 = 1 / 2) := by
  have hm : ∀ (f : ℚ → ℚ), (l.map f).getD i 0 = f (l.getD i 0) := by
    intro f
    rw [getD_of_lt l i hi 0, getD_of_lt (l.map f) i (by simpa using hi) 0,
      List.getElem_map]
  constructor
  · intro hne
    have hd : seriesMax l - seriesMin l ≠ 0 := sub_ne_zero.mpr hne
    have hminmax : ( _minmax l).getD i 0 =
        (l.getD i 0 - seriesMin l) / (seriesMax l - seriesMin l) := by
      simp only [ _minmax, if_pos hne]
      exact hm _
    have hnorm : (normalizeJune l).getD i 0 =
        (l.getD i 0 - seriesMin l) / (seriesMax l - seriesMin l) := by
      simp only [normalizeJune, if_neg hne]
      exact hm _
    constructor
    · intro hx
      rw [hminmax, hnorm, hx, div_self hd]
      exact ⟨rfl, rfl⟩
    · intro hx
      rw [hminmax, hnorm, hx, sub_self, zero_div]
      exact ⟨rfl, rfl⟩
  · intro heq
    have h1 : ( _minmax l).getD i 0 = 0 := by
      simp only [ _minmax, if_neg (not_not.mpr heq)]
      exact hm _
    have h2 : (normalizeJune l).getD i 0 = 1 / 2 := by
      simp only [normalizeJune, if_pos heq]
      exact hm _
    exact ⟨h1, h2⟩

theorem minmax_maps_extremes_witness :
    (( _minmax [(1 : ℚ), 3]).getD 1 0 = 1 ∧ (normalizeJune [(1 : ℚ), 3]).getD 1 0 = 1) ∧
    (( _minmax [(1 : ℚ), 3]).getD 0 0 = 0 ∧ (normalizeJune [(1 : ℚ), 3]).getD 0 0 = 0) ∧
    (( _minmax [(2 : ℚ), 2]).getD 0 0 = 0 ∧ (normalizeJune [(2 : ℚ), 2]).getD 0 0 = 1 / 2) := by
  refine ⟨?_, ?_, ?_⟩
  · exact ((minmax_maps_extremes [1, 3] 1 (by decide)).1 (by decide)).1 (by decide)
  · exact ((minmax_maps_extremes [1, 3] 0 (by decide)).1 (by decide)).2 (by decide)
  · exact (minmax_maps_extremes [2, 2] 0 (by decide)).2 (by decide)

/-- C10: every equal-weight composite score lies in the closed unit
interval: the three-metric `profit_score` of `profitable_vegetables.py` and
the two-metric `combined_score` of `top_vegetables_june.py` average min-max
normalised values, each of which lies in `[0, 1]`. -/
theorem composite_scores_in_unit_interval (b : List MRow) (c : List JRow)
    (i j : ℕ) (hi : i < (profit_score b).length) (hj : j < (combined_score c).length) :
    (0 ≤ (profit_score b).getD i 0 ∧ (profit_score b).getD i 0 ≤ 1) ∧
    (0 ≤ (combined_score c).getD j 0 ∧ (combined_score c).getD j 0 ≤ 1) := by
  constructor
  · rw [getD_of_lt _ i hi 0]
    simp only [profit_score] at hi ⊢
    simp only [List.getElem_map, List.getElem_zip]
    set np := _minmax (b.map (fun r => r.avg_price)) with hnp
    set nv := _minmax (b.map (fun r => r.total_volume)) with hnv
    set na := _minmax (b.map (fun r => r.per_acre)) with hna
    simp only [List.length_map, List.length_zip, lt_min_iff] at hi
    obtain ⟨h1, h2, h3⟩ := hi
    have b1 := mem_minmax_bounds _ _ (List.getElem_mem (l := np) (n := i) h1)
    have b2 := mem_minmax_bounds _ _ (List.getElem_mem (l := nv) (n := i) h2)
    have b3 := mem_minmax_bounds _ _ (List.getElem_mem (l := na) (n := i) h3)
    constructor
    · have := b1.1; have := b2.1; have := b3.1; linarith
    · have := b1.2; have := b2.2; have := b3.2; linarith
  · rw [getD_of_lt _ j hj 0]
    simp only [combined_score] at hj ⊢
    simp only [List.getElem_map, List.getElem_zip]
    set rn := normalizeJune (c.map (fun r => r.avg_rate)) with hrn
    set vn := normalizeJune (c.map (fun r => r.volume)) with hvn
    simp only [List.length_map, List.length_zip, lt_min_iff] at hj
    obtain ⟨h1, h2⟩ := hj
    have b1 := mem_normalizeJune_bounds _ _ (List.getElem_mem (l := rn) (n := j) h1)
    have b2 := mem_normalizeJune_bounds _ _ (List.getElem_mem (l := vn) (n := j) h2)
    constructor
    · have := b1.1; have := b2.1; linarith
    · have := b1.2; have := b2.2; linarith

theorem composite_scores_in_unit_interval_witness :
    (0 ≤ (profit_score [⟨1, 2, 3⟩, ⟨2, 1, 4⟩]).getD 0 0 ∧
      (profit_score [⟨1, 2, 3⟩, ⟨2, 1, 4⟩]).getD 0 0 ≤ 1) ∧
    (0 ≤ (combined_score [⟨1, 2⟩, ⟨2, 1⟩]).getD 0 0 ∧
      (combined_score [⟨1, 2⟩, ⟨2, 1⟩]).getD 0 0 ≤ 1) :=
  composite_scores_in_unit_interval [⟨1, 2, 3⟩, ⟨2, 1, 4⟩] [⟨1, 2⟩, ⟨2, 1⟩] 0 0
    (by decide) (by decide)

theorem filter_orderedInsert_of_key (v : ℚ) (a : SRow) (ha : a.score = v) :
    ∀ l : List SRow,
      (List.orderedInsert rowGE a l).filter (fun r => decide (r.score = v)) =
        a :: l.filter (fun r => decide (r.score = v)) := by
  intro l
  induction l with
  | nil => simp [List.orderedInsert, ha]
  | cons b l ih =>
    by_cases hr : rowGE a b
    · simp [List.orderedInsert, hr, ha]
    · have hb : ¬ b.score = v := by
        intro hbv
        exact hr (le_of_eq (hbv.trans ha.symm))
      simp [List.orderedInsert, if_neg hr, List.filter_cons, hb, ih]

theorem filter_orderedInsert_of_ne (v : ℚ) (a : SRow) (ha : ¬ a.score = v) :
    ∀ l : List SRow,
      (List.orderedInsert rowGE a l).filter (fun r => decide (r.score = v)) =
        l.filter (fun r => decide (r.score = v)) := by
  intro l
  induction l with
  | nil => simp [List.orderedInsert, ha]
  | cons b l ih =>
    by_cases hr : rowGE a b
    · simp [List.orderedInsert, hr, ha]
    · simp only [List.orderedInsert, if_neg hr, List.filter_cons, ih]

theorem filter_sortDesc (v : ℚ) (l : List SRow) :
    (sortDesc l).filter (fun r => decide (r.score = v)) =
      l.filter (fun r => decide (r.score = v)) := by
  induction l with
  | nil => rfl
  | cons a l ih =>
    show (List.orderedInsert rowGE a (sortDesc l)).filter _ = _
    by_cases ha : a.score = v
    · rw [filter_orderedInsert_of_key v a ha, ih]
      simp [List.filter_cons, ha]
    · rw [filter_orderedInsert_of_ne v a ha, ih]
      simp [List.filter_cons, ha]

theorem filter_take_sub (p : SRow → Bool) :
    ∀ (l : List SRow) (n : ℕ), ∃ k, (l.take n).filter p = (l.filter p).take k := by
  intro l
  induction l with
  | nil => intro n; exact ⟨0, by simp⟩
  | cons a l ih =>
    intro n
    cases n with
    | zero => exact ⟨0, by simp⟩
    | succ n =>
      obtain ⟨k, hk⟩ := ih n
      by_cases ha : p a = true
      · exact ⟨k + 1, by simp [List.filter_cons, ha, hk]⟩
      · refine ⟨k, ?_⟩
        simp only [List.take_succ_cons, List.filter_cons, ha]
        simpa [ha] using hk

/-- C3 counterexample: two rows tied on the primary key, listed with name
`B` before name `A`.  The ranking keeps the tie in input order, so the top-2
output is `B` then `A`, not the ascending-name order `A` then `B` that the
claim requires. -/
theorem rank_tie_not_name_ordered :
    nlargest 2 [⟨"B", 5⟩, ⟨"A", 5⟩] = [⟨"B", 5⟩, ⟨"A", 5⟩] ∧
    nlargest 2 [⟨"B", 5⟩, ⟨"A", 5⟩] ≠ [⟨"A", 5⟩, ⟨"B", 5⟩] := by
  constructor
  · decide
  · decide

/-- C3 (amended): ties in the primary ordering key are kept in their
original input order (pandas `keep='first'` semantics), not reordered by
commodity name: for every key value `v`, the `v`-tied rows of the ranked
output form an initial segment of the `v`-tied rows of the input in input
order.  Hence an identical input sequence always yields the identical
output ordering. -/
theorem rank_ties_keep_input_order (v : ℚ) (n : ℕ) (l : List SRow) :
    ∃ k, (nlargest n l).filter (fun r => decide (r.score = v)) =
      (l.filter (fun r => decide (r.score = v))).take k := by
  obtain ⟨k, hk⟩ := filter_take_sub (fun r => decide (r.score = v)) (sortDesc l) n
  exact ⟨k, by rw [nlargest, hk, filter_sortDesc]⟩

/-- C7: the ranked output of a bucket never exceeds `top_n` rows, with
equality exactly when the bucket has at least `top_n` rows; a smaller
bucket yields a shorter result (no padding, no error). -/
theorem nlargest_length_le (n : ℕ) (_hn : 0 < n) (l : List SRow) :
    (nlargest n l).length ≤ n ∧ ((nlargest n l).length = n ↔ n ≤ l.length) := by
  have hlen : (nlargest n l).length = min n l.length := by
    simp [nlargest, sortDesc, List.length_take]
  constructor
  · rw [hlen]; exact min_le_left n l.length
  · rw [hlen]; exact min_eq_left_iff

theorem nlargest_length_le_witness :
    0 < 2 ∧
      ((nlargest 2 [⟨"B", 5⟩, ⟨"A", 7⟩, ⟨"C", 6⟩]).length ≤ 2 ∧
        ((nlargest 2 [⟨"B", 5⟩, ⟨"A", 7⟩, ⟨"C", 6⟩]).length = 2 ↔
          2 ≤ ([⟨"B", 5⟩, ⟨"A", 7⟩, ⟨"C", 6⟩] : List SRow).length)) :=
  ⟨by decide, nlargest_length_le 2 (by decide) [⟨"B", 5⟩, ⟨"A", 7⟩, ⟨"C", 6⟩]⟩

/-- C2: the `n_days` aggregate of `profitable_vegetables.py` counts rows,
not distinct dates.  On a group holding two rows that share one observation
date it returns 2, while the distinct-date count (the spec's
`trading_days`) is 1. -/
theorem n_days_counts_rows_not_dates :
    n_days [⟨202403, 2001, "Onion", 5, 50, 1100⟩, ⟨202403, 2001, "Onion", 5, 70, 1200⟩]
        202403 2001 "Onion" = 2 ∧
    distinctTradingDays
        [⟨202403, 2001, "Onion", 5, 50, 1100⟩, ⟨202403, 2001, "Onion", 5, 70, 1200⟩]
        202403 2001 "Onion" = 1 := by
  constructor
  · decide
  · decide

/-- C6: both rate parsers are total over all strings — every input yields
either a numeric value or the missing marker (no other outcome exists) —
and the missing-value sentinels, the empty string and the `'&nbsp;'`
placeholder, map to the missing marker (in particular never to zero). -/
theorem rate_parsers_total_and_sentinels :
    (∀ s : List Char, clean_rate s = none ∨ ∃ q : ℚ, clean_rate s = some q) ∧
    (∀ s : List Char, extract_rate s = none ∨ ∃ q : ℚ, extract_rate s = some q) ∧
    clean_rate [] = none ∧ clean_rate nbspC = none ∧
    extract_rate [] = none ∧ extract_rate nbspC = none := by
  refine ⟨?_, ?_, by decide, by decide, by decide, by decide⟩
  · intro s
    cases h : clean_rate s with
    | none => exact Or.inl rfl
    | some q => exact Or.inr ⟨q, rfl⟩
  · intro s
    cases h : extract_rate s with
    | none => exact Or.inl rfl
    | some q => exact Or.inr ⟨q, rfl⟩

/-- C9: the tolerant (regex-first-integer) policy of
`crop_rate_analysis.py` only ever produces the missing marker or the value
of a digit run — a non-negative integer; a leading minus sign is dropped
(`-5` parses to 5) and a fractional part is dropped (`12.5` parses to 12),
so the result is never negative and never fractional. -/
theorem clean_rate_nonneg_integer :
    (∀ s : List Char, clean_rate s = none ∨ ∃ k : ℕ, clean_rate s = some ((k : ℚ))) ∧
    clean_rate ['-', '5'] = some 5 ∧ clean_rate ['1', '2', '.', '5'] = some 12 := by
  refine ⟨?_, by decide, by decide⟩
  intro s
  by_cases hs : s = nbspC
  · exact Or.inl (by simp [clean_rate, hs])
  · rw [clean_rate, if_neg hs]
    cases h : firstDigitRun s with
    | none => exact Or.inl rfl
    | some run => exact Or.inr ⟨parseDigits run, rfl⟩

theorem isDigitC_digitChar (d : ℕ) (hd : d < 10) : isDigitC (digitChar d) = true := by
  interval_cases d <;> decide

theorem charVal_digitChar (d : ℕ) (hd : d < 10) : charVal (digitChar d) = d := by
  interval_cases d <;> decide

theorem digit_char_facts (c : Char) (h : isDigitC c = true) :
    isSpaceC c = false ∧ c ≠ 'R' ∧ c ≠ '/' ∧ c ≠ ',' ∧ c ≠ '-' ∧ c ≠ '+' ∧ c ≠ '.' := by
  simp only [isDigitC, decide_eq_true_eq] at h
  obtain ⟨h1, h2⟩ := h
  refine ⟨?_, ?_, ?_, ?_, ?_, ?_, ?_⟩
  · have hsp : c ≠ ' ' := by intro he; rw [he] at h1; exact absurd h1 (by decide)
    have htb : c ≠ '\t' := by intro he; rw [he] at h1; exact absurd h1 (by decide)
    have hnl : c ≠ '\n' := by intro he; rw [he] at h1; exact absurd h1 (by decide)
    have hcr : c ≠ '\r' := by intro he; rw [he] at h1; exact absurd h1 (by decide)
    simp [isSpaceC, hsp, htb, hnl, hcr]
  · intro he; rw [he] at h2; exact absurd h2 (by decide)
  · intro he; rw [he] at h1; exact absurd h1 (by decide)
  · intro he; rw [he] at h1; exact absurd h1 (by decide)
  · intro he; rw [he] at h1; exact absurd h1 (by decide)
  · intro he; rw [he] at h1; exact absurd h1 (by decide)
  · intro he; rw [he] at h1; exact absurd h1 (by decide)

theorem natNumeral_ne_nil (n : ℕ) : natNumeral n ≠ [] := by
  unfold natNumeral
  split
  · simp
  · intro h
    rw [List.reverse_eq_nil_iff, List.map_eq_nil_iff] at h
    exact (Nat.digits_ne_nil_iff_ne_zero.mpr (by assumption)) h

theorem mem_natNumeral_isDigit (n : ℕ) : ∀ c ∈ natNumeral n, isDigitC c = true := by
  intro c hc
  unfold natNumeral at hc
  split at hc
  · rcases List.mem_singleton.mp hc with rfl
    decide
  · rw [List.mem_reverse] at hc
    rcases List.mem_map.mp hc with ⟨d, hd, rfl⟩
    exact isDigitC_digitChar d (Nat.digits_lt_base (by norm_num) hd)

theorem foldl_digitChar (L : List ℕ) :
    (∀ d ∈ L, d < 10) → ∀ acc : ℕ,
      ((L.map digitChar).reverse).foldl (fun a c => 10 * a + charVal c) acc =
        acc * 10 ^ L.length + Nat.ofDigits 10 L := by
  induction L with
  | nil => intro _ acc; simp [Nat.ofDigits]
  | cons d T ih =>
    intro hL acc
    have hd : d < 10 := hL d (List.mem_cons_self d T)
    have hT : ∀ x ∈ T, x < 10 := fun x hx => hL x (List.mem_cons_of_mem d hx)
    simp only [List.map_cons, List.reverse_cons, List.foldl_append, List.foldl_cons,
      List.foldl_nil, ih hT acc]
    rw [charVal_digitChar d hd, Nat.ofDigits_cons, List.length_cons]
    ring

theorem parseDigits_natNumeral (n : ℕ) : parseDigits (natNumeral n) = n := by
  unfold natNumeral
  split
  · rename_i h
    rw [h]; decide
  · rw [parseDigits,
      foldl_digitChar (Nat.digits 10 n) (fun d hd => Nat.digits_lt_base (by norm_num) hd) 0]
    simp [Nat.ofDigits_digits]

theorem takeWhile_all (p : Char → Bool) :
    ∀ l : List Char, (∀ c ∈ l, p c = true) → l.takeWhile p = l := by
  intro l
  induction l with
  | nil => intro _; rfl
  | cons c r ih =>
    intro h
    rw [List.takeWhile_cons_of_pos (h c (List.mem_cons_self c r)),
      ih (fun x hx => h x (List.mem_cons_of_mem c hx))]

theorem takeWhile_append_stop (p : Char → Bool) :
    ∀ l : List Char, (∀ c ∈ l, p c = true) →
      ∀ (x : Char) (t : List Char), p x = false → (l ++ x :: t).takeWhile p = l := by
  intro l
  induction l with
  | nil =>
    intro _ x t hx
    simp [List.takeWhile_cons, hx]
  | cons c r ih =>
    intro h x t hx
    rw [List.cons_append, List.takeWhile_cons_of_pos (h c (List.mem_cons_self c r)),
      ih (fun y hy => h y (List.mem_cons_of_mem c hy)) x t hx]

theorem dropWhile_all_false (p : Char → Bool) (l : List Char)
    (h : ∀ c ∈ l, p c = false) : l.dropWhile p = l := by
  cases l with
  | nil => rfl
  | cons c r =>
    exact List.dropWhile_cons_of_neg (by simp [h c (List.mem_cons_self c r)])

theorem firstDigitRun_cons_no (c : Char) (s : List Char) (hc : isDigitC c = false) :
    firstDigitRun (c :: s) = firstDigitRun s := by
  simp [firstDigitRun, hc]

theorem firstDigitRun_cons_yes (c : Char) (s : List Char) (hc : isDigitC c = true) :
    firstDigitRun (c :: s) = some (c :: s.takeWhile isDigitC) := by
  simp [firstDigitRun, hc]

theorem clean_rate_rsFormat (n : ℕ) :
    clean_rate (rsFormat (natNumeral n)) = some ((n : ℚ)) := by
  obtain ⟨d, ds, hnd⟩ : ∃ d ds, natNumeral n = d :: ds := by
    cases h : natNumeral n with
    | nil => exact absurd h (natNumeral_ne_nil n)
    | cons d ds => exact ⟨d, ds, rfl⟩
  have hall := mem_natNumeral_isDigit n
  have hd : isDigitC d = true := hall d (by rw [hnd]; exact List.mem_cons_self d ds)
  have hds : ∀ c ∈ ds, isDigitC c = true :=
    fun c hc => hall c (by rw [hnd]; exact List.mem_cons_of_mem d hc)
  have hnb : rsFormat (natNumeral n) ≠ nbspC := by
    rw [show rsFormat (natNumeral n) = 'R' :: 's' :: '.' :: ' ' :: (natNumeral n ++ sufC)
      from rfl]
    intro h
    rw [show nbspC = '&' :: ['n', 'b', 's', 'p', ';'] from rfl] at h
    exact absurd (List.head_eq_of_cons_eq h) (by decide)
  rw [show clean_rate (rsFormat (natNumeral n)) =
      if rsFormat (natNumeral n) = nbspC then none
      else
        match firstDigitRun (rsFormat (natNumeral n)) with
        | some run => some ((parseDigits run : ℚ))
        | none => none
    from rfl, if_neg hnb]
  rw [show rsFormat (natNumeral n) = 'R' :: 's' :: '.' :: ' ' :: ((d :: ds) ++ sufC) by
    rw [← hnd]; rfl]
  rw [firstDigitRun_cons_no 'R' _ (by decide), firstDigitRun_cons_no 's' _ (by decide),
    firstDigitRun_cons_no '.' _ (by decide), firstDigitRun_cons_no ' ' _ (by decide)]
  rw [List.cons_append, firstDigitRun_cons_yes d _ hd]
  rw [show sufC = '/' :: ['-'] from rfl, takeWhile_append_stop isDigitC ds hds '/' ['-']
    (by decide)]
  show some ((parseDigits (d :: ds) : ℚ)) = some ((n : ℚ))
  rw [← hnd, parseDigits_natNumeral]

theorem leadsWith_refl_append (pat : List Char) : ∀ t, leadsWith pat (pat ++ t) = true := by
  induction pat with
  | nil => intro t; rfl
  | cons p ps ih =>
    intro t
    rw [List.cons_append]
    simp [leadsWith, ih t]

theorem removeAllFuel_nil (pat : List Char) : ∀ f : ℕ, removeAllFuel pat f [] = [] := by
  intro f
  cases f with
  | zero => rfl
  | succ f => rfl

theorem removeAllFuel_head_notMem (p : Char) (ps : List Char) :
    ∀ (f : ℕ) (s : List Char), p ∉ s → removeAllFuel (p :: ps) f s = s := by
  intro f
  induction f with
  | zero => intro s _; rfl
  | succ f ih =>
    intro s h
    cases s with
    | nil => rfl
    | cons c rest =>
      have hc : ¬ p = c := fun he => h (he ▸ List.mem_cons_self c rest)
      have hlw : leadsWith (p :: ps) (c :: rest) = false := by
        simp [leadsWith, hc]
      rw [removeAllFuel, if_neg (by simp [hlw])]
      rw [ih rest (fun hm => h (List.mem_cons_of_mem c hm))]

theorem removeAll_head_notMem (p : Char) (ps s : List Char) (h : p ∉ s) :
    removeAll (p :: ps) s = s :=
  removeAllFuel_head_notMem p ps s.length s h

theorem removeAllFuel_skip (p : Char) (ps : List Char) :
    ∀ s : List Char, p ∉ s → ∀ (f : ℕ) (t : List Char),
      removeAllFuel (p :: ps) (s.length + f) (s ++ t) = s ++ removeAllFuel (p :: ps) f t := by
  intro s
  induction s with
  | nil => intro _ f t; simp
  | cons c rest ih =>
    intro h f t
    have hc : ¬ p = c := fun he => h (he ▸ List.mem_cons_self c rest)
    have hlw : leadsWith (p :: ps) (c :: (rest ++ t)) = false := by
      simp [leadsWith, hc]
    have hlen : (c :: rest).length + f = (rest.length + f) + 1 := by
      simp [List.length_cons]; ring
    rw [hlen, List.cons_append, removeAllFuel, if_neg (by simp [hlw])]
    rw [ih (fun hm => h (List.mem_cons_of_mem c hm)) f t]
    rfl

theorem removeAll_append_pat (p : Char) (ps s : List Char) (h : p ∉ s) :
    removeAll (p :: ps) (s ++ (p :: ps)) = s := by
  rw [removeAll, List.length_append, removeAllFuel_skip p ps s h (p :: ps).length (p :: ps)]
  have hfin : removeAllFuel (p :: ps) (p :: ps).length (p :: ps) = [] := by
    rw [show (p :: ps).length = ps.length + 1 from rfl, removeAllFuel]
    rw [if_pos ⟨List.cons_ne_nil p ps, by
      have := leadsWith_refl_append (p :: ps) []
      rwa [List.append_nil] at this⟩]
    rw [show (p :: ps).drop (p :: ps).length = [] from List.drop_length (p :: ps)]
    exact removeAllFuel_nil (p :: ps) ps.length
  rw [hfin, List.append_nil]

theorem removeAll_pat_front (p : Char) (ps t : List Char) (h : p ∉ t) :
    removeAll (p :: ps) ((p :: ps) ++ t) = t := by
  rw [removeAll]
  rw [show ((p :: ps) ++ t).length = (ps.length + t.length) + 1 by simp]
  rw [show (p :: ps) ++ t = p :: (ps ++ t) from rfl, removeAllFuel]
  rw [if_pos ⟨List.cons_ne_nil p ps, leadsWith_refl_append (p :: ps) t⟩]
  rw [show (p :: (ps ++ t)).drop (p :: ps).length = t by
    rw [show p :: (ps ++ t) = (p :: ps) ++ t from rfl]
    exact List.drop_left (p :: ps) t]
  exact removeAllFuel_head_notMem p ps (ps.length + t.length) t h

theorem strip_space_all_digits (l : List Char) (h : ∀ c ∈ l, isDigitC c = true) :
    strip (' ' :: l) = l := by
  have hns : ∀ c ∈ l, isSpaceC c = false := fun c hc => (digit_char_facts c (h c hc)).1
  rw [strip, List.dropWhile_cons_of_pos (by decide), dropWhile_all_false isSpaceC l hns,
    dropWhile_all_false isSpaceC l.reverse (fun c hc => hns c (List.mem_reverse.mp hc)),
    List.reverse_reverse]

theorem parseFloat_all_digits (l : List Char) (hne : l ≠ [])
    (h : ∀ c ∈ l, isDigitC c = true) : parseFloat l = some ((parseDigits l : ℚ)) := by
  obtain ⟨d, ds, rfl⟩ : ∃ d ds, l = d :: ds := by
    cases l with
    | nil => exact absurd rfl hne
    | cons d ds => exact ⟨d, ds, rfl⟩
  have hd : isDigitC d = true := h d (List.mem_cons_self d ds)
  have facts := digit_char_facts d hd
  rw [parseFloat, if_neg facts.2.2.2.2.1, if_neg facts.2.2.2.2.2.1]
  rw [show parseFloatCore (d :: ds) =
      (match (d :: ds).drop ((d :: ds).takeWhile isDigitC).length with
       | [] =>
         if ((d :: ds).takeWhile isDigitC).isEmpty then none
         else some ((parseDigits ((d :: ds).takeWhile isDigitC) : ℚ))
       | '.' :: fr =>
         if (fr.drop (fr.takeWhile isDigitC).length).isEmpty then
           if ((d :: ds).takeWhile isDigitC).isEmpty && (fr.takeWhile isDigitC).isEmpty then
             none
           else
             some ((parseDigits ((d :: ds).takeWhile isDigitC) : ℚ) +
               (parseDigits (fr.takeWhile isDigitC) : ℚ) / (10 : ℚ) ^ (fr.takeWhile isDigitC).length)
         else none
       | _ => none)
    from rfl]
  rw [takeWhile_all isDigitC (d :: ds) h, List.drop_length]
  rfl

theorem parse_rs_rsFormat (n : ℕ) :
    _parse_rs (rsFormat (natNumeral n)) = some ((n : ℚ)) := by
  have hall := mem_natNumeral_isDigit n
  have hnotR : 'R' ∉ (' ' :: (natNumeral n ++ sufC)) := by
    intro hm
    rcases List.mem_cons.mp hm with he | hm
    · exact absurd he (by decide)
    rcases List.mem_append.mp hm with hm | hm
    · exact absurd rfl (digit_char_facts 'R' (hall 'R' hm)).2.1
    · rcases List.mem_cons.mp hm with he | hm
      · exact absurd he (by decide)
      · rcases List.mem_singleton.mp hm with he
        exact absurd he (by decide)
  have h1 : removeAll rsC (rsFormat (natNumeral n)) = ' ' :: (natNumeral n ++ sufC) := by
    rw [rsFormat, show rsC = 'R' :: ['s', '.'] from rfl]
    exact removeAll_pat_front 'R' ['s', '.'] _ hnotR
  have hnotSl : '/' ∉ (' ' :: natNumeral n) := by
    intro hm
    rcases List.mem_cons.mp hm with he | hm
    · exact absurd he (by decide)
    · exact absurd rfl (digit_char_facts '/' (hall '/' hm)).2.2.1
  have h2 : removeAll sufC (' ' :: (natNumeral n ++ sufC)) = ' ' :: natNumeral n := by
    rw [show (' ' :: (natNumeral n ++ sufC)) = (' ' :: natNumeral n) ++ sufC by simp,
      show sufC = '/' :: ['-'] from rfl]
    exact removeAll_append_pat '/' ['-'] (' ' :: natNumeral n) hnotSl
  have hnotC : ',' ∉ (' ' :: natNumeral n) := by
    intro hm
    rcases List.mem_cons.mp hm with he | hm
    · exact absurd he (by decide)
    · exact absurd rfl (digit_char_facts ',' (hall ',' hm)).2.2.2.1
  have h3 : removeAll commaC (' ' :: natNumeral n) = ' ' :: natNumeral n := by
    rw [show commaC = ',' :: [] from rfl]
    exact removeAll_head_notMem ',' [] _ hnotC
  have h4 : strip (' ' :: natNumeral n) = natNumeral n := strip_space_all_digits _ hall
  have h5 : parseFloat (natNumeral n) = some ((parseDigits (natNumeral n) : ℚ)) :=
    parseFloat_all_digits _ (natNumeral_ne_nil n) hall
  rw [ _parse_rs, h1, h2, h3, h4, h5, parseDigits_natNumeral]

/-- C8 counterexample: the numeric value 12.5 formatted with the decoration
scheme parses under the tolerant (regex-first-integer) policy to 12, not
12.5 — the fractional part is dropped, so the round-trip fails for the
stated "every numeric value" under "either policy". -/
theorem round_trip_fails_on_fraction :
    clean_rate (rsFormat ['1', '2', '.', '5']) = some 12 ∧ (12 : ℚ) ≠ 25 / 2 :=
  ⟨by decide, by norm_num⟩

/-- C8 (amended): for every NATURAL number `n`, parsing the string obtained
by formatting `n` with the decoration scheme recovers exactly `n` under both
configured parsing policies (tolerant regex-first-integer and strict
decoration-stripping).  The unrestricted claim fails for fractional (and
negative) values under the tolerant policy. -/
theorem round_trip_natural (n : ℕ) :
    clean_rate (rsFormat (natNumeral n)) = some ((n : ℚ)) ∧
    _parse_rs (rsFormat (natNumeral n)) = some ((n : ℚ)) :=
  ⟨clean_rate_rsFormat n, parse_rs_rsFormat n⟩

/-- A sample raw spreadsheet row used to instantiate the cleaner theorem. -/
def sampleRaw : RawObservation :=
  ⟨5, "Onion", "50".data, "Rs. 1200/-".data, "Rs. 1000/-".data⟩

/-- C5: every row emitted by `VegetableDataCleaner.clean` has all four
numeric fields present (max rate, min rate, quantity, average price — in
the rational model presence is the finiteness invariant, since `NaN` and
missing cells are both the `none` marker), its name passed the vocabulary
filter, and it arises from parsing some input row; a raw row failing rate
parsing, quantity parsing or the commodity filter contributes nothing. -/
theorem cleaner_invariant (vocab : List String) (rows : List RawObservation)
    (p : ParsedRow) (hp : p ∈ clean vocab rows) :
    p.product_max_rate.isSome = true ∧ p.product_min_rate.isSome = true ∧
    p.product_quantity.isSome = true ∧ p.avg_price.isSome = true ∧
    vocab.contains p.product_name = true ∧ ∃ r ∈ rows, p = parseRowVA r := by
  rcases List.mem_filter.mp hp with ⟨hp1, hvocab⟩
  rcases List.mem_filter.mp hp1 with ⟨hp2, hcond⟩
  rcases List.mem_map.mp hp2 with ⟨r, hr, hpr⟩
  subst hpr
  simp only [parseRowVA] at hcond hvocab ⊢
  rw [Bool.and_eq_true] at hcond
  obtain ⟨havg, hq⟩ := hcond
  cases hmx : _parse_price r.product_max_rate with
  | none => rw [hmx] at havg; simp [optAvg] at havg
  | some a =>
    cases hmn : _parse_price r.product_min_rate with
    | none => rw [hmx, hmn] at havg; simp [optAvg] at havg
    | some b =>
      exact ⟨rfl, rfl, hq, by simp [optAvg], hvocab, ⟨r, hr, by rw [hmx, hmn]⟩⟩

theorem cleaner_invariant_witness :
    (parseRowVA sampleRaw).product_max_rate.isSome = true ∧
    (parseRowVA sampleRaw).product_min_rate.isSome = true ∧
    (parseRowVA sampleRaw).product_quantity.isSome = true ∧
    (parseRowVA sampleRaw).avg_price.isSome = true ∧
    (["Onion"].contains (parseRowVA sampleRaw).product_name) = true ∧
    ∃ r ∈ [sampleRaw], parseRowVA sampleRaw = parseRowVA r :=
  cleaner_invariant ["Onion"] [sampleRaw] (parseRowVA sampleRaw) (by
    apply List.mem_filter.mpr
    refine ⟨?_, by decide⟩
    apply List.mem_filter.mpr
    refine ⟨?_, by decide⟩
    exact List.mem_map.mpr ⟨sampleRaw, List.mem_cons_self _ _, rfl⟩)
